/-
Verification of the python-launcher core library (src/lib.rs).

The library resolves a user-supplied Python version request against the
interpreters found on the search path.  This file gives a shallow embedding
of its data model and operations:

* `RequestedVersion` / `ExactVersion` — the two version value types.
* `parseDigits` / `parseComponent` — a model of Rust's `u16::from_str`
  (`from_str_radix` with radix 10 on an unsigned 16-bit type): an optional
  leading `'+'`, then one or more ASCII digits, failing with `posOverflow`
  as soon as an intermediate value would exceed `u16::MAX = 65535`.
* `ExactVersion.from_str`, `RequestedVersion.from_str`,
  `ExactVersion.from_path`, `ExactVersion.supports`,
  `ExactVersion.to_string` — direct translations of the source.
* `all_executables_in_paths` — discovery: the `HashMap` is modelled as an
  association list in insertion order (`entry(..).or_insert(..)` inserts
  only when the key is absent).
* `find_executable_in_hashmap` — resolution over one iteration order of the
  map, given as a list of entries; Rust's `Iterator::max` over
  `(&ExactVersion, &PathBuf)` pairs is modelled by a fold over the pair
  order `entryLe` (version first — derived `Ord` on `ExactVersion` is
  lexicographic on `(major, minor)` — then the path, byte-wise; UTF-8 byte
  order coincides with code-point order, which `natListLe` uses).

Strings are modelled as `List Char`; Rust's `str::len` (a count of UTF-8
bytes) is `utf8Len`; `Path::file_name` (Unix semantics) is `fileName`.
The `FileNameToStrError` branch of `from_path` cannot fire in this model
because every modelled file name is valid Unicode text.
-/
import Mathlib

namespace PyLauncher

/-- The kinds of `std::num::ParseIntError` that `u16::from_str` can produce
on the inputs of this development. -/
inductive ParseIntErrorKind where
  | empty
  | invalidDigit
  | posOverflow
  deriving DecidableEq, Repr

/-- The library's error enum (`Error` in src/lib.rs).  The
`NoExecutableFound` variant belongs to the cli consumption layer and is not
needed by any claim; the remaining variants are modelled as in the source. -/
inductive Error where
  | ParseVersionComponentError (kind : ParseIntErrorKind)
  | DotMissing
  | FileNameMissing
  | FileNameToStrError
  | PathFileNameError
  deriving DecidableEq, Repr

/-- `RequestedVersion` from the source: the version of Python a user
requested.  Components are `u16` in the source (`ComponentSize`); they are
carried as `Nat` here, with the 16-bit bound enforced where the source
enforces it, namely in parsing. -/
inductive RequestedVersion where
  | Any
  | MajorOnly (major : Nat)
  | Exact (major minor : Nat)
  deriving DecidableEq, Repr

/-- `ExactVersion` from the source: a fully specified `major.minor`
version. -/
structure ExactVersion where
  major : Nat
  minor : Nat
  deriving DecidableEq, Repr

/-- Decidable equality of fallible results, so that concrete runs of the
parsers can be checked by `decide`. -/
instance {ε α : Type} [DecidableEq ε] [DecidableEq α] : DecidableEq (Except ε α) := fun a b =>
  match a, b with
  | .ok x, .ok y =>
    if h : x = y then isTrue (by rw [h]) else isFalse (by intro hc; injection hc; contradiction)
  | .error x, .error y =>
    if h : x = y then isTrue (by rw [h]) else isFalse (by intro hc; injection hc; contradiction)
  | .ok _, .error _ => isFalse (by intro hc; injection hc)
  | .error _, .ok _ => isFalse (by intro hc; injection hc)

/-- `u16::MAX`, the largest value a version component can carry. -/
def u16Max : Nat := 65535

/-- The digit-accumulation loop of Rust's `from_str_radix` on `u16`:
each byte must be an ASCII digit (else `InvalidDigit`), and the running
value is grown by `checked_mul`/`checked_add` (else `PosOverflow`). -/
def parseDigits (acc : Nat) : List Char → Except ParseIntErrorKind Nat
  | [] => .ok acc
  | c :: cs =>
    if c.isDigit then
      if acc * 10 + (c.toNat - 48) ≤ u16Max then
        parseDigits (acc * 10 + (c.toNat - 48)) cs
      else .error .posOverflow
    else .error .invalidDigit

/-- Rust's `u16::from_str`: the empty string is `Empty`; one optional
leading `'+'` is stripped (a bare sign is `InvalidDigit`); the rest goes
through `parseDigits`.  A `'-'` is not stripped for an unsigned type and
fails as a non-digit. -/
def parseComponent (cs : List Char) : Except ParseIntErrorKind Nat :=
  match cs with
  | [] => .error .empty
  | c :: rest =>
    if c = '+' then
      if rest.isEmpty then .error .invalidDigit else parseDigits 0 rest
    else parseDigits 0 (c :: rest)

/-- Split a string at its first `'.'` (Rust's `find('.')` plus the two
slices `[..i]` and `[i + 1..]`); `none` when there is no dot. -/
def breakAtDot : List Char → Option (List Char × List Char)
  | [] => none
  | c :: cs =>
    if c = '.' then some ([], cs)
    else
      match breakAtDot cs with
      | none => none
      | some (l, r) => some (c :: l, r)

/-- `ExactVersion::from_str`: split at the first dot (else `DotMissing`),
parse both halves as `u16` components, wrapping a failure in
`ParseVersionComponentError`. -/
def ExactVersion.from_str (cs : List Char) : Except Error ExactVersion :=
  match breakAtDot cs with
  | none => .error .DotMissing
  | some (majorStr, minorStr) =>
    match parseComponent majorStr with
    | .error e => .error (.ParseVersionComponentError e)
    | .ok major =>
      match parseComponent minorStr with
      | .error e => .error (.ParseVersionComponentError e)
      | .ok minor => .ok { major := major, minor := minor }

/-- `RequestedVersion::from_str`: empty means `Any`; a string containing a
dot is delegated to `ExactVersion::from_str` and rewrapped as `Exact`
(errors propagate unchanged); otherwise the whole string is one `u16`
component giving `MajorOnly`. -/
def RequestedVersion.from_str (cs : List Char) : Except Error RequestedVersion :=
  if cs.isEmpty then .ok .Any
  else if '.' ∈ cs then
    match ExactVersion.from_str cs with
    | .ok ev => .ok (.Exact ev.major ev.minor)
    | .error e => .error e
  else
    match parseComponent cs with
    | .ok n => .ok (.MajorOnly n)
    | .error e => .error (.ParseVersionComponentError e)

/-- Decimal digits of `n`, most significant first, with structural fuel
(`n < fuel` always holds at the call sites).  Models the decimal `Display`
of Rust's unsigned integers. -/
def natToDigitsCore (fuel : Nat) (n : Nat) : List Char :=
  match fuel with
  | 0 => []
  | fuel + 1 =>
    if n < 10 then [Nat.digitChar n]
    else natToDigitsCore fuel (n / 10) ++ [Nat.digitChar (n % 10)]

/-- The canonical decimal form of `n` (no sign, no leading zero except for
`0` itself). -/
def natToDigits (n : Nat) : List Char := natToDigitsCore (n + 1) n

/-- `ExactVersion`'s `ToString`: `format!("{}.{}", major, minor)`. -/
def ExactVersion.to_string (v : ExactVersion) : List Char :=
  natToDigits v.major ++ '.' :: natToDigits v.minor

/-- `ExactVersion::supports`: does this installed version satisfy the
request? -/
def ExactVersion.supports (v : ExactVersion) (requested : RequestedVersion) : Bool :=
  match requested with
  | .Any => true
  | .MajorOnly major => v.major == major
  | .Exact major minor => v.major == major && v.minor == minor

/-- A file-system path, as the char sequence of its text. -/
abbrev Path := List Char

/-- Rust's `str::len`: the number of UTF-8 bytes of the text. -/
def utf8Len (cs : List Char) : Nat := cs.foldl (fun n c => n + c.utf8Size) 0

/-- The components of a path split on `'/'`. -/
def splitSlash : List Char → List (List Char)
  | [] => [[]]
  | c :: cs =>
    match splitSlash cs with
    | [] => [[]]
    | grp :: grps => if c = '/' then [] :: grp :: grps else (c :: grp) :: grps

/-- `Path::file_name` (Unix): the final normal component — empty and `"."`
components are dropped, and a path whose last component is `".."` (or that
has no component at all, like `"/"` or `""`) has no file name. -/
def fileName (p : Path) : Option (List Char) :=
  match ((splitSlash p).filter fun comp => !comp.isEmpty && comp != ['.']).getLast? with
  | none => none
  | some comp => if comp = ['.', '.'] then none else some comp

/-- The literal `"python"`. -/
def pythonChars : List Char := "python".toList

/-- `ExactVersion::from_path`: no file name is `FileNameMissing`; a file
name of fewer than 9 UTF-8 bytes (`"python3.0".len()`) or without the
literal `"python"` at its start is `PathFileNameError`; otherwise the rest
of the name after `"python"` (6 bytes, here 6 chars since the prefix
matched) is parsed by `ExactVersion::from_str`.  The source's
`FileNameToStrError` branch needs a non-Unicode name and cannot fire in
this model. -/
def ExactVersion.from_path (p : Path) : Except Error ExactVersion :=
  match fileName p with
  | none => .error .FileNameMissing
  | some fn =>
    if 9 ≤ utf8Len fn ∧ pythonChars.isPrefixOf fn = true then
      ExactVersion.from_str (fn.drop 6)
    else .error .PathFileNameError

/-- One step of discovery: `executables.entry(version).or_insert(path)`
after a successful `ExactVersion::from_path` — the pair is appended only
when the version key is not yet present; a parse failure contributes
nothing. -/
def insertExecutable (m : List (ExactVersion × Path)) (p : Path) :
    List (ExactVersion × Path) :=
  match ExactVersion.from_path p with
  | .ok v => if v ∈ m.map Prod.fst then m else m ++ [(v, p)]
  | .error _ => m

/-- `all_executables_in_paths`: fold `insertExecutable` over the candidate
paths in order.  The returned association list models the `HashMap`: its
key set and key-value association are the map, and it is total — no error
is ever produced. -/
def all_executables_in_paths (paths : List Path) : List (ExactVersion × Path) :=
  paths.foldl insertExecutable []

/-- `HashMap::get` on the association-list model: the value stored under
key `v`, if any. -/
def listLookup (m : List (ExactVersion × Path)) (v : ExactVersion) : Option Path :=
  (m.find? fun e => decide (e.1 = v)).map Prod.snd

/-- The strict order of the derived `Ord` on `ExactVersion`: lexicographic
on `(major, minor)`. -/
def vLt (v w : ExactVersion) : Prop :=
  v.major < w.major ∨ (v.major = w.major ∧ v.minor < w.minor)

instance (v w : ExactVersion) : Decidable (vLt v w) := by
  unfold vLt; infer_instance

/-- Reflexive closure of `vLt`: the total order on version keys. -/
def vLe (v w : ExactVersion) : Prop := vLt v w ∨ v = w

instance (v w : ExactVersion) : Decidable (vLe v w) := by
  unfold vLe; infer_instance

/-- Lexicographic order on byte sequences (Rust's `Ord` for `PathBuf`
compares the underlying bytes; UTF-8 byte order agrees with code-point
order, so paths are compared as their code-point sequences). -/
def natListLe : List Nat → List Nat → Prop
  | [], _ => True
  | _ :: _, [] => False
  | a :: as, b :: bs => a < b ∨ (a = b ∧ natListLe as bs)

instance natListLe.instDec : (l₁ l₂ : List Nat) → Decidable (natListLe l₁ l₂)
  | [], _ => isTrue trivial
  | _ :: _, [] => isFalse fun h => h
  | _ :: as, _ :: bs =>
    have : Decidable (natListLe as bs) := natListLe.instDec as bs
    inferInstanceAs (Decidable (_ ∨ _))

/-- The (non-strict) order in which Rust's `iter().max()` compares the
`(&ExactVersion, &PathBuf)` pairs of the map: version first, then path. -/
def entryLe (x y : ExactVersion × Path) : Prop :=
  vLt x.1 y.1 ∨ (x.1 = y.1 ∧ natListLe (x.2.map Char.toNat) (y.2.map Char.toNat))

instance (x y : ExactVersion × Path) : Decidable (entryLe x y) := by
  unfold entryLe; infer_instance

/-- `Iterator::max`: fold keeping the running maximum; on ties the later
element replaces the earlier one, as Rust's `max` returns the last maximal
element. -/
def maxAux (c : ExactVersion × Path) : List (ExactVersion × Path) → ExactVersion × Path
  | [] => c
  | x :: xs => maxAux (if entryLe c x then x else c) xs

/-- `Iterator::max` over a full list of entries. -/
def listMax : List (ExactVersion × Path) → Option (ExactVersion × Path)
  | [] => none
  | x :: xs => some (maxAux x xs)

/-- `find_executable_in_hashmap`, over one iteration order of the map:
`Any` takes the maximum entry; `MajorOnly` filters by `supports` and takes
the maximum; `Exact` takes the first entry that `supports` the request;
the chosen entry's path is returned. -/
def find_executable_in_hashmap (requested : RequestedVersion)
    (found : List (ExactVersion × Path)) : Option Path :=
  (match requested with
   | .Any => listMax found
   | .MajorOnly m => listMax (found.filter fun e => e.1.supports (.MajorOnly m))
   | .Exact m n => found.find? fun e => e.1.supports (.Exact m n)).map Prod.snd

/-- Strip one leading `'+'`, as `from_str_radix` does on an unsigned
type; used to state which strings a component parse accepts. -/
def stripPlus (cs : List Char) : List Char :=
  match cs with
  | [] => []
  | c :: rest => if c = '+' then rest else c :: rest

/-- The numeric value of a digit string read most significant digit first,
folded from `acc`. -/
def digitsValFrom (acc : Nat) (ds : List Char) : Nat :=
  ds.foldl (fun a c => a * 10 + (c.toNat - 48)) acc

/-- The strings accepted as one `u16` component: after stripping one
optional `'+'`, a nonempty all-digit string whose value fits in 16 bits. -/
def componentOk (cs : List Char) : Bool :=
  !(stripPlus cs).isEmpty && (stripPlus cs).all Char.isDigit
    && decide (digitsValFrom 0 (stripPlus cs) ≤ u16Max)

/-- The value denoted by an accepted component string. -/
def compVal (cs : List Char) : Nat := digitsValFrom 0 (stripPlus cs)

/-- Spec-side predicate, following the spec's words for the request
grammar: "a string of decimal digits" (`"<digits>"`). -/
def specDigitString (cs : List Char) : Bool := !cs.isEmpty && cs.all Char.isDigit

/-- The two-entry discovery map of the spec's resolution example:
`3.6 -> /python3.6` and `3.7 -> /python3.7`. -/
def sampleMap : List (ExactVersion × Path) :=
  [(⟨3, 6⟩, "/python3.6".toList), (⟨3, 7⟩, "/python3.7".toList)]

/-! ### Facts about digits and `u16` component parsing -/

theorem digitChar_isDigit : ∀ k < 10, (Nat.digitChar k).isDigit = true := by decide

theorem digitChar_toNat : ∀ k < 10, (Nat.digitChar k).toNat - 48 = k := by decide

theorem digitsValFrom_cons (acc : Nat) (c : Char) (ds : List Char) :
    digitsValFrom acc (c :: ds) = digitsValFrom (acc * 10 + (c.toNat - 48)) ds := rfl

theorem digitsValFrom_append (acc : Nat) (l₁ l₂ : List Char) :
    digitsValFrom acc (l₁ ++ l₂) = digitsValFrom (digitsValFrom acc l₁) l₂ :=
  List.foldl_append _ _ _ _

theorem le_digitsValFrom : ∀ (ds : List Char) (acc : Nat), acc ≤ digitsValFrom acc ds := by
  intro ds
  induction ds with
  | nil => intro acc; exact Nat.le_refl acc
  | cons c ds ih =>
    intro acc
    calc acc ≤ acc * 10 + (c.toNat - 48) := by omega
    _ ≤ digitsValFrom (acc * 10 + (c.toNat - 48)) ds := ih _
    _ = digitsValFrom acc (c :: ds) := (digitsValFrom_cons acc c ds).symm

/-- Complete characterization of the digit loop: it succeeds exactly on
all-digit strings whose value (folded from an in-range `acc`) stays within
`u16Max`, and then returns that value. -/
theorem parseDigits_ok_iff :
    ∀ (ds : List Char) (acc : Nat), acc ≤ u16Max → ∀ v : Nat,
      (parseDigits acc ds = .ok v ↔
        (ds.all Char.isDigit = true ∧ digitsValFrom acc ds ≤ u16Max ∧ v = digitsValFrom acc ds)) := by
  intro ds
  induction ds with
  | nil =>
    intro acc hacc v
    constructor
    · intro h
      injection h with h
      exact ⟨rfl, by simpa [digitsValFrom] using hacc, by simp [digitsValFrom, h.symm]⟩
    · rintro ⟨-, -, hv⟩
      simp [parseDigits, digitsValFrom] at hv ⊢
      exact hv.symm
  | cons c ds ih =>
    intro acc hacc v
    by_cases hc : c.isDigit
    · by_cases hb : acc * 10 + (c.toNat - 48) ≤ u16Max
      · rw [show parseDigits acc (c :: ds) = parseDigits (acc * 10 + (c.toNat - 48)) ds from by
          simp [parseDigits, hc, hb]]
        rw [ih _ hb v, digitsValFrom_cons, List.all_cons, hc]
        simp
      · have hgt : u16Max < digitsValFrom acc (c :: ds) := by
          rw [digitsValFrom_cons]
          exact Nat.lt_of_lt_of_le (by omega) (le_digitsValFrom ds _)
        rw [show parseDigits acc (c :: ds) = .error .posOverflow from by
          simp [parseDigits, hc, hb]]
        simp
        intro _ h
        omega
    · rw [show parseDigits acc (c :: ds) = .error .invalidDigit from by
        simp [parseDigits, hc]]
      simp [List.all_cons, hc]

/-- `u16::from_str` succeeds exactly on the strings `componentOk` accepts,
returning their value `compVal`. -/
theorem parseComponent_ok_iff (cs : List Char) (v : Nat) :
    parseComponent cs = .ok v ↔ (componentOk cs = true ∧ v = compVal cs) := by
  match cs with
  | [] => simp [parseComponent, componentOk, stripPlus]
  | c :: rest =>
    by_cases hc : c = '+'
    · subst hc
      match rest with
      | [] => simp [parseComponent, componentOk, stripPlus]
      | r :: rs =>
        rw [show parseComponent ('+' :: r :: rs) = parseDigits 0 (r :: rs) from by
          simp [parseComponent, List.isEmpty]]
        rw [parseDigits_ok_iff (r :: rs) 0 (by simp [u16Max]) v]
        simp [componentOk, compVal, stripPlus, Bool.and_eq_true, and_assoc]
    · rw [show parseComponent (c :: rest) = parseDigits 0 (c :: rest) from by
        simp [parseComponent, hc]]
      rw [parseDigits_ok_iff (c :: rest) 0 (by simp [u16Max]) v]
      simp [componentOk, compVal, stripPlus, hc, Bool.and_eq_true, and_assoc]

/-! ### Splitting at the dot -/

theorem breakAtDot_eq_none_iff : ∀ cs : List Char, breakAtDot cs = none ↔ '.' ∉ cs := by
  intro cs
  induction cs with
  | nil => simp [breakAtDot]
  | cons c cs ih =>
    by_cases hc : c = '.'
    · subst hc; simp [breakAtDot]
    · rw [show breakAtDot (c :: cs) = match breakAtDot cs with
          | none => none
          | some (l, r) => some (c :: l, r) from by simp [breakAtDot, hc]]
      cases hb : breakAtDot cs with
      | none => simpa [List.mem_cons, Ne.symm hc] using ih.mp hb
      | some pr =>
        simp only [List.mem_cons]
        constructor
        · intro h; exact absurd h (by simp)
        · intro h
          exact absurd (ih.mpr fun hm => h (Or.inr hm)) (by simp [hb])

theorem breakAtDot_some_eq :
    ∀ (cs l r : List Char), breakAtDot cs = some (l, r) → cs = l ++ '.' :: r ∧ '.' ∉ l := by
  intro cs
  induction cs with
  | nil => intro l r h; simp [breakAtDot] at h
  | cons c cs ih =>
    intro l r h
    by_cases hc : c = '.'
    · subst hc
      simp [breakAtDot] at h
      obtain ⟨hl, hr⟩ := h
      subst hl; subst hr
      simp
    · rw [show breakAtDot (c :: cs) = match breakAtDot cs with
          | none => none
          | some (l, r) => some (c :: l, r) from by simp [breakAtDot, hc]] at h
      cases hb : breakAtDot cs with
      | none => rw [hb] at h; simp at h
      | some pr =>
        obtain ⟨l', r'⟩ := pr
        rw [hb] at h
        simp only [Option.some.injEq, Prod.mk.injEq] at h
        obtain ⟨hl, hr⟩ := h
        obtain ⟨hcs, hnotl⟩ := ih l' r' hb
        subst hl
        subst hr
        constructor
        · rw [hcs]; simp
        · simp [List.mem_cons, hnotl, Ne.symm hc]

theorem breakAtDot_of_append :
    ∀ (l₁ l₂ : List Char), '.' ∉ l₁ → breakAtDot (l₁ ++ '.' :: l₂) = some (l₁, l₂) := by
  intro l₁
  induction l₁ with
  | nil => intro l₂ _; simp [breakAtDot]
  | cons c cs ih =>
    intro l₂ h
    rw [List.mem_cons, not_or] at h
    obtain ⟨hc, hcs⟩ := h
    simp only [List.cons_append]
    rw [show breakAtDot (c :: (cs ++ '.' :: l₂)) = match breakAtDot (cs ++ '.' :: l₂) with
        | none => none
        | some (l, r) => some (c :: l, r) from by simp [breakAtDot, Ne.symm hc]]
    rw [ih l₂ hcs]

/-! ### Characterizing the two string parsers -/

theorem exact_from_str_ok_iff (cs : List Char) (v : ExactVersion) :
    ExactVersion.from_str cs = .ok v ↔
      ∃ l r, breakAtDot cs = some (l, r)
        ∧ parseComponent l = .ok v.major ∧ parseComponent r = .ok v.minor := by
  cases hb : breakAtDot cs with
  | none => simp [ExactVersion.from_str, hb]
  | some pr =>
    obtain ⟨l, r⟩ := pr
    cases hl : parseComponent l with
    | error e => simp [ExactVersion.from_str, hb, hl]
    | ok a =>
      cases hr : parseComponent r with
      | error e =>
        simp [ExactVersion.from_str, hb, hl, hr]
      | ok b =>
        obtain ⟨vM, vm⟩ := v
        simp only [ExactVersion.from_str, hb, hl, hr]
        constructor
        · intro h
          injection h with h
          injection h with h1 h2
          refine ⟨l, r, rfl, ?_, ?_⟩
          · rw [h1] at hl; exact hl
          · rw [h2] at hr; exact hr
        · rintro ⟨l', r', heq, hl', hr'⟩
          injection heq with heq
          injection heq with e1 e2
          subst e1
          subst e2
          rw [hl] at hl'
          rw [hr] at hr'
          injection hl' with e3
          injection hr' with e4
          rw [e3, e4]

theorem exact_from_str_dot_missing (cs : List Char) (h : '.' ∉ cs) :
    ExactVersion.from_str cs = .error .DotMissing := by
  rw [ExactVersion.from_str, (breakAtDot_eq_none_iff cs).mpr h]

/-! ### Decimal rendering of naturals -/

theorem natToDigitsCore_all_digit :
    ∀ (fuel n : Nat), n < fuel → ∀ c ∈ natToDigitsCore fuel n, c.isDigit = true := by
  intro fuel
  induction fuel with
  | zero => intro n h; omega
  | succ fuel ih =>
    intro n h c hc
    by_cases h10 : n < 10
    · rw [show natToDigitsCore (fuel + 1) n = [Nat.digitChar n] from by
        simp [natToDigitsCore, h10]] at hc
      simp at hc
      rw [hc]
      exact digitChar_isDigit n h10
    · rw [show natToDigitsCore (fuel + 1) n
          = natToDigitsCore fuel (n / 10) ++ [Nat.digitChar (n % 10)] from by
        simp [natToDigitsCore, h10]] at hc
      rw [List.mem_append] at hc
      rcases hc with hc | hc
      · exact ih (n / 10) (by omega) c hc
      · simp at hc
        rw [hc]
        exact digitChar_isDigit (n % 10) (by omega)

theorem natToDigitsCore_val :
    ∀ (fuel n : Nat), n < fuel → digitsValFrom 0 (natToDigitsCore fuel n) = n := by
  intro fuel
  induction fuel with
  | zero => intro n h; omega
  | succ fuel ih =>
    intro n h
    by_cases h10 : n < 10
    · rw [show natToDigitsCore (fuel + 1) n = [Nat.digitChar n] from by
        simp [natToDigitsCore, h10]]
      show 0 * 10 + ((Nat.digitChar n).toNat - 48) = n
      have := digitChar_toNat n h10
      omega
    · rw [show natToDigitsCore (fuel + 1) n
          = natToDigitsCore fuel (n / 10) ++ [Nat.digitChar (n % 10)] from by
        simp [natToDigitsCore, h10]]
      rw [digitsValFrom_append, ih (n / 10) (by omega)]
      show (n / 10) * 10 + ((Nat.digitChar (n % 10)).toNat - 48) = n
      have := digitChar_toNat (n % 10) (by omega)
      omega

theorem natToDigitsCore_ne_nil :
    ∀ (fuel n : Nat), n < fuel → natToDigitsCore fuel n ≠ [] := by
  intro fuel n h
  cases fuel with
  | zero => omega
  | succ fuel =>
    by_cases h10 : n < 10 <;> simp [natToDigitsCore, h10]

theorem natToDigits_all_digit (n : Nat) : ∀ c ∈ natToDigits n, c.isDigit = true :=
  natToDigitsCore_all_digit (n + 1) n (Nat.lt_succ_self n)

theorem natToDigits_val (n : Nat) : digitsValFrom 0 (natToDigits n) = n :=
  natToDigitsCore_val (n + 1) n (Nat.lt_succ_self n)

theorem natToDigits_ne_nil (n : Nat) : natToDigits n ≠ [] :=
  natToDigitsCore_ne_nil (n + 1) n (Nat.lt_succ_self n)

theorem dot_not_mem_natToDigits (n : Nat) : '.' ∉ natToDigits n := by
  intro h
  have := natToDigits_all_digit n '.' h
  simp at this

theorem parseComponent_natToDigits (n : Nat) (h : n ≤ u16Max) :
    parseComponent (natToDigits n) = .ok n := by
  cases hd : natToDigits n with
  | nil => exact absurd hd (natToDigits_ne_nil n)
  | cons c rest =>
    have hcd : c.isDigit = true := natToDigits_all_digit n c (by rw [hd]; simp)
    have hcne : ¬(c = '+') := by
      intro hc
      rw [hc] at hcd
      simp at hcd
    rw [show parseComponent (c :: rest) = parseDigits 0 (c :: rest) from by
      simp [parseComponent, hcne]]
    rw [parseDigits_ok_iff (c :: rest) 0 (by simp [u16Max]) n]
    refine ⟨by rw [← hd]; exact List.all_eq_true.mpr (natToDigits_all_digit n), ?_, ?_⟩
    · rw [← hd, natToDigits_val n]; exact h
    · rw [← hd, natToDigits_val n]

theorem mem_stripPlus_of_ne (c0 : Char) (cs : List Char) (h : c0 ∈ cs) (hne : c0 ≠ '+') :
    c0 ∈ stripPlus cs := by
  match cs with
  | [] => simp at h
  | c :: rest =>
    by_cases hc : c = '+'
    · subst hc
      rw [List.mem_cons] at h
      rcases h with h | h
      · exact absurd h hne
      · simpa [stripPlus] using h
    · simpa [stripPlus, hc] using h

theorem componentOk_false_of_dot (cs : List Char) (hd : '.' ∈ cs) : componentOk cs = false := by
  have hmem : '.' ∈ stripPlus cs := mem_stripPlus_of_ne '.' cs hd (by decide)
  cases hcm : componentOk cs with
  | false => rfl
  | true =>
    exfalso
    simp only [componentOk, Bool.and_eq_true] at hcm
    have := List.all_eq_true.mp hcm.1.2 '.' hmem
    simp at this

/-- The `MajorOnly` branch of `RequestedVersion::from_str`, exposed. -/
theorem request_from_str_no_dot (c : Char) (rest : List Char) (hdot : '.' ∉ c :: rest) :
    RequestedVersion.from_str (c :: rest) =
      (match parseComponent (c :: rest) with
       | .ok n => .ok (.MajorOnly n)
       | .error e => .error (.ParseVersionComponentError e)) := by
  simp [RequestedVersion.from_str, hdot]

/-- The `Exact` branch of `RequestedVersion::from_str`, exposed. -/
theorem request_from_str_dot (c : Char) (rest : List Char) (hdot : '.' ∈ c :: rest) :
    RequestedVersion.from_str (c :: rest) =
      (match ExactVersion.from_str (c :: rest) with
       | .ok ev => .ok (.Exact ev.major ev.minor)
       | .error e => .error e) := by
  simp [RequestedVersion.from_str, hdot]

/-- C3 (amended): parsing a request string yields `Any` exactly for the
empty string; `MajorOnly n` exactly for a string that, after one optional
leading `'+'`, is a nonempty run of decimal digits denoting `n ≤ 65535`;
`Exact a b` exactly for a string splitting at its first `'.'` into two such
components denoting `a` and `b`; every other string fails with a parse
error — in particular `".3"`, `"3."`, `"h"`, `"3.b"`, `"a.7"` and
`"3.6.5"` all fail. -/
theorem request_from_str_characterization : ∀ cs : List Char,
    (RequestedVersion.from_str cs = .ok .Any ↔ cs = [])
    ∧ (∀ n, RequestedVersion.from_str cs = .ok (.MajorOnly n) ↔
        componentOk cs = true ∧ n = compVal cs)
    ∧ (∀ a b, RequestedVersion.from_str cs = .ok (.Exact a b) ↔
        ∃ l r, breakAtDot cs = some (l, r)
          ∧ (componentOk l = true ∧ a = compVal l)
          ∧ (componentOk r = true ∧ b = compVal r))
    ∧ RequestedVersion.from_str ".3".toList = .error (.ParseVersionComponentError .empty)
    ∧ RequestedVersion.from_str "3.".toList = .error (.ParseVersionComponentError .empty)
    ∧ RequestedVersion.from_str "h".toList = .error (.ParseVersionComponentError .invalidDigit)
    ∧ RequestedVersion.from_str "3.b".toList = .error (.ParseVersionComponentError .invalidDigit)
    ∧ RequestedVersion.from_str "a.7".toList = .error (.ParseVersionComponentError .invalidDigit)
    ∧ RequestedVersion.from_str "3.6.5".toList
        = .error (.ParseVersionComponentError .invalidDigit) := by
  intro cs
  refine ⟨?_, ?_, ?_, by decide, by decide, by decide, by decide, by decide, by decide⟩
  · -- `Any` exactly for the empty string
    cases cs with
    | nil => simp [RequestedVersion.from_str]
    | cons c rest =>
      by_cases hdot : '.' ∈ c :: rest
      · rw [request_from_str_dot c rest hdot]
        cases he : ExactVersion.from_str (c :: rest) <;> simp
      · rw [request_from_str_no_dot c rest hdot]
        cases hp : parseComponent (c :: rest) <;> simp
  · -- `MajorOnly`
    intro n
    cases cs with
    | nil => simp [RequestedVersion.from_str, componentOk, stripPlus]
    | cons c rest =>
      by_cases hdot : '.' ∈ c :: rest
      · rw [request_from_str_dot c rest hdot, componentOk_false_of_dot _ hdot]
        cases he : ExactVersion.from_str (c :: rest) <;> simp
      · rw [request_from_str_no_dot c rest hdot]
        cases hp : parseComponent (c :: rest) with
        | ok k =>
          obtain ⟨hok, hval⟩ := (parseComponent_ok_iff (c :: rest) k).mp hp
          subst hval
          simp [hok, eq_comm]
        | error e =>
          simp only
          constructor
          · intro h; simp at h
          · rintro ⟨hok, -⟩
            have := (parseComponent_ok_iff (c :: rest) (compVal (c :: rest))).mpr ⟨hok, rfl⟩
            rw [hp] at this
            simp at this
  · -- `Exact`
    intro a b
    cases cs with
    | nil => simp [RequestedVersion.from_str, breakAtDot]
    | cons c rest =>
      by_cases hdot : '.' ∈ c :: rest
      · have hbranch : RequestedVersion.from_str (c :: rest) = .ok (.Exact a b)
            ↔ ExactVersion.from_str (c :: rest) = .ok ⟨a, b⟩ := by
          rw [request_from_str_dot c rest hdot]
          cases he : ExactVersion.from_str (c :: rest) with
          | ok ev => obtain ⟨em, en⟩ := ev; simp
          | error e => simp
        rw [hbranch, exact_from_str_ok_iff]
        simp only [parseComponent_ok_iff]
      · rw [request_from_str_no_dot c rest hdot]
        have hnone := (breakAtDot_eq_none_iff (c :: rest)).mpr hdot
        cases hp : parseComponent (c :: rest) <;> simp [hnone]

/-- C3 (counterexample): `"+3"` is not a string of decimal digits yet
parses to `MajorOnly 3`, and `"65536"` is a string of decimal digits
denoting 65536 yet fails to parse (`u16` overflow), refuting the claim
that `MajorOnly n` is produced exactly for the digit strings. -/
theorem request_from_str_digit_string_cex :
    RequestedVersion.from_str "+3".toList = .ok (.MajorOnly 3)
    ∧ specDigitString "+3".toList = false
    ∧ specDigitString "65536".toList = true
    ∧ RequestedVersion.from_str "65536".toList
        = .error (.ParseVersionComponentError .posOverflow) := by decide

/-- C4 (amended): for components within the `u16` range, parsing the
canonical decimal string `"<a>.<b>"` — which is exactly what formatting
`(a, b)` produces — yields `(a, b)` back, and formatting `(a, b)` yields
that canonical string. -/
theorem exact_version_decimal_roundtrip : ∀ a b : Nat, a ≤ u16Max → b ≤ u16Max →
    ExactVersion.from_str (ExactVersion.to_string ⟨a, b⟩) = .ok ⟨a, b⟩
    ∧ ExactVersion.to_string ⟨a, b⟩ = natToDigits a ++ '.' :: natToDigits b := by
  intro a b ha hb
  refine ⟨?_, rfl⟩
  show ExactVersion.from_str (natToDigits a ++ '.' :: natToDigits b) = .ok ⟨a, b⟩
  rw [ExactVersion.from_str,
    breakAtDot_of_append (natToDigits a) (natToDigits b) (dot_not_mem_natToDigits a)]
  simp [parseComponent_natToDigits a ha, parseComponent_natToDigits b hb]

/-- C4 (witness): the round-trip at the concrete version `3.8`. -/
theorem exact_version_decimal_roundtrip_witness :
    ExactVersion.from_str (ExactVersion.to_string ⟨3, 8⟩) = .ok ⟨3, 8⟩
    ∧ ExactVersion.to_string ⟨3, 8⟩ = natToDigits 3 ++ '.' :: natToDigits 8 :=
  exact_version_decimal_roundtrip 3 8 (by decide) (by decide)

/-- C4 (counterexample): at `a = 65536`, `b = 0` the claimed round-trip
fails — formatting yields `"65536.0"` but parsing that canonical decimal
string is a `u16` overflow error, not `Ok (65536, 0)`. -/
theorem exact_version_decimal_roundtrip_overflow_cex :
    ExactVersion.to_string ⟨65536, 0⟩ = "65536.0".toList
    ∧ ExactVersion.from_str (ExactVersion.to_string ⟨65536, 0⟩)
        = .error (.ParseVersionComponentError .posOverflow) := by decide

/-! ### Path-based parsing -/

theorem utf8Len_aux :
    ∀ (cs : List Char) (acc : Nat), acc + cs.length ≤ cs.foldl (fun n c => n + c.utf8Size) acc := by
  intro cs
  induction cs with
  | nil => intro acc; simp
  | cons c cs ih =>
    intro acc
    have h1 : 0 < c.utf8Size := Char.utf8Size_pos c
    simp only [List.length_cons, List.foldl_cons]
    have := ih (acc + c.utf8Size)
    omega

theorem length_le_utf8Len (cs : List Char) : cs.length ≤ utf8Len cs := by
  have := utf8Len_aux cs 0
  simpa [utf8Len] using this

/-- C5 (amended): parsing a `FullVersion` from a path fails with
`FileNameMissing` when the path has no final component; fails with
`PathFileNameError` when the file name does not begin with `"python"` or
is shorter than 9 UTF-8 bytes (so `"/notpython"` and `"/python3"` are
rejected with `PathFileNameError`); otherwise it parses the suffix after
`"python"` as a version string and propagates that parse's error kinds
unchanged, so `"/pythonX.Y"` yields `ParseVersionComponentError` and
`"/python42.13"` yields `(42, 13)`. -/
theorem from_path_characterization : ∀ p : Path,
    (fileName p = none → ExactVersion.from_path p = .error .FileNameMissing)
    ∧ (∀ fn, fileName p = some fn → ¬(9 ≤ utf8Len fn ∧ pythonChars.isPrefixOf fn = true) →
        ExactVersion.from_path p = .error .PathFileNameError)
    ∧ (∀ fn, fileName p = some fn → 9 ≤ utf8Len fn → pythonChars.isPrefixOf fn = true →
        ExactVersion.from_path p = ExactVersion.from_str (fn.drop 6))
    ∧ ExactVersion.from_path "/".toList = .error .FileNameMissing
    ∧ ExactVersion.from_path "/notpython".toList = .error .PathFileNameError
    ∧ ExactVersion.from_path "/python3".toList = .error .PathFileNameError
    ∧ ExactVersion.from_path "/pythonX.Y".toList
        = .error (.ParseVersionComponentError .invalidDigit)
    ∧ ExactVersion.from_path "/python42.13".toList = .ok ⟨42, 13⟩ := by
  intro p
  refine ⟨?_, ?_, ?_, by decide, by decide, by decide, by decide, by decide⟩
  · intro h
    simp [ExactVersion.from_path, h]
  · intro fn hfn hbad
    rw [ExactVersion.from_path, hfn]
    simp only [if_neg hbad]
  · intro fn hfn h9 hpre
    rw [ExactVersion.from_path, hfn]
    simp only [if_pos (And.intro h9 hpre)]

/-- C5 (witness): the general clauses at the path `"/python42.13"`, whose
file name is 12 bytes long and starts with `"python"`. -/
theorem from_path_characterization_witness :
    ExactVersion.from_path "/python42.13".toList
      = ExactVersion.from_str ("python42.13".toList.drop 6) :=
  (from_path_characterization "/python42.13".toList).2.2.1
    "python42.13".toList (by decide) (by decide) (by decide)

/-- C5 (counterexample): the file name `"pythoné5"` is 8 characters long
(and begins with `"python"`), so the claim predicts `PathFileNameError`;
but its UTF-8 length is 9 bytes, so the code accepts it into version
parsing and fails with `DotMissing` instead. -/
theorem from_path_byte_length_cex :
    fileName "/pythoné5".toList = some "pythoné5".toList
    ∧ ("pythoné5".toList).length = 8
    ∧ utf8Len "pythoné5".toList = 9
    ∧ pythonChars.isPrefixOf "pythoné5".toList = true
    ∧ ExactVersion.from_path "/pythoné5".toList = .error .DotMissing := by decide

/-- C10: a path whose (valid-text) file name is at least 9 characters
long, starts with `"python"`, and whose suffix after `"python"` contains
no `'.'` fails with `DotMissing`, not `PathFileNameError`. -/
theorem from_path_dotless_long_name : ∀ (p : Path) (fn : List Char),
    fileName p = some fn → 9 ≤ fn.length → pythonChars.isPrefixOf fn = true →
    '.' ∉ fn.drop 6 → ExactVersion.from_path p = .error .DotMissing := by
  intro p fn hfn hlen hpre hdot
  have h9 : 9 ≤ utf8Len fn := Nat.le_trans hlen (length_le_utf8Len fn)
  rw [ExactVersion.from_path, hfn]
  simp only [if_pos (And.intro h9 hpre)]
  exact exact_from_str_dot_missing _ hdot

/-- C10 (witness): the path `"/pythonabcd"` — 10-character file name,
`"python"` at its start, no dot in the suffix `"abcd"` — is rejected with
`DotMissing`. -/
theorem from_path_dotless_long_name_witness :
    ExactVersion.from_path "/pythonabcd".toList = .error .DotMissing :=
  from_path_dotless_long_name "/pythonabcd".toList "pythonabcd".toList
    (by decide) (by decide) (by decide) (by decide)

/-- C6: `v.supports r` holds exactly when `r` is `Any`, or `r` is
`MajorOnly m` with `v.major = m`, or `r` is `Exact m n` with `v.major = m`
and `v.minor = n`. -/
theorem supports_characterization : ∀ (v : ExactVersion) (r : RequestedVersion),
    v.supports r = true ↔
      (r = .Any ∨ (∃ m, r = .MajorOnly m ∧ v.major = m)
        ∨ ∃ m n, r = .Exact m n ∧ v.major = m ∧ v.minor = n) := by
  intro v r
  cases r with
  | Any => simp [ExactVersion.supports]
  | MajorOnly m =>
    simp only [ExactVersion.supports, beq_iff_eq]
    constructor
    · intro h
      exact Or.inr (Or.inl ⟨m, rfl, h⟩)
    · rintro (h | ⟨m', hm, h⟩ | ⟨m', n', hm, -, -⟩)
      · exact absurd h (by simp)
      · injection hm with e
        subst e
        exact h
      · exact absurd hm (by simp)
  | Exact m n =>
    simp only [ExactVersion.supports, Bool.and_eq_true, beq_iff_eq]
    constructor
    · rintro ⟨h1, h2⟩
      exact Or.inr (Or.inr ⟨m, n, rfl, h1, h2⟩)
    · rintro (h | ⟨m', hm, -⟩ | ⟨m', n', hmn, h1, h2⟩)
      · exact absurd h (by simp)
      · exact absurd hm (by simp)
      · injection hmn with e1 e2
        subst e1
        subst e2
        exact ⟨h1, h2⟩

/-! ### Discovery: the association-list map built by
`all_executables_in_paths` -/

theorem listLookup_eq_none_iff (m : List (ExactVersion × Path)) (v : ExactVersion) :
    listLookup m v = none ↔ v ∉ m.map Prod.fst := by
  rw [listLookup, Option.map_eq_none', List.find?_eq_none]
  constructor
  · intro h hv
    rw [List.mem_map] at hv
    obtain ⟨e, he, hfe⟩ := hv
    exact h e he (by simp [hfe])
  · intro h e he hd
    rw [decide_eq_true_iff] at hd
    apply h
    rw [← hd]
    exact List.mem_map_of_mem Prod.fst he

theorem listLookup_append (m₁ m₂ : List (ExactVersion × Path)) (v : ExactVersion) :
    listLookup (m₁ ++ m₂) v = (listLookup m₁ v).or (listLookup m₂ v) := by
  rw [listLookup, List.find?_append]
  cases h : List.find? (fun e => decide (e.1 = v)) m₁ with
  | none => simp [listLookup, h, Option.none_or]
  | some e => simp [listLookup, h]

theorem listLookup_singleton_same (v : ExactVersion) (p : Path) :
    listLookup [(v, p)] v = some p := by
  simp [listLookup]

theorem listLookup_singleton_other (w v : ExactVersion) (p : Path) (h : ¬(w = v)) :
    listLookup [(w, p)] v = none := by
  simp [listLookup, h]

/-- The fold underlying discovery, related to a first-match search over the
remaining paths: the final association of `v` is the one already in `acc`
if present, else the first path among `paths` that parses to `v`. -/
theorem lookup_foldl_insertExecutable : ∀ (paths : List Path)
    (acc : List (ExactVersion × Path)) (v : ExactVersion),
    listLookup (paths.foldl insertExecutable acc) v
      = (listLookup acc v).or
          (paths.find? fun p => decide (ExactVersion.from_path p = .ok v)) := by
  intro paths
  induction paths with
  | nil =>
    intro acc v
    simp [Option.or_none]
  | cons p rest ih =>
    intro acc v
    rw [List.foldl_cons, ih]
    cases hfp : ExactVersion.from_path p with
    | error e =>
      rw [show insertExecutable acc p = acc from by simp [insertExecutable, hfp],
        List.find?_cons_of_neg _ (by simp [hfp])]
    | ok w =>
      by_cases hv : v = w
      · subst hv
        rw [List.find?_cons_of_pos _ (by simp [hfp])]
        by_cases hk : v ∈ acc.map Prod.fst
        · rw [show insertExecutable acc p = acc from by simp [insertExecutable, hfp, hk]]
          obtain ⟨q, hq⟩ : ∃ q, listLookup acc v = some q := by
            cases hc : listLookup acc v with
            | none => exact absurd ((listLookup_eq_none_iff acc v).mp hc) (by simp [hk])
            | some q => exact ⟨q, rfl⟩
          rw [hq]
          rfl
        · rw [show insertExecutable acc p = acc ++ [(v, p)] from by
            simp [insertExecutable, hfp, hk]]
          rw [listLookup_append, (listLookup_eq_none_iff acc v).mpr hk,
            listLookup_singleton_same]
          rfl
      · rw [List.find?_cons_of_neg _ (by simp [hfp]; exact fun h => hv h.symm)]
        by_cases hk : w ∈ acc.map Prod.fst
        · rw [show insertExecutable acc p = acc from by simp [insertExecutable, hfp, hk]]
        · rw [show insertExecutable acc p = acc ++ [(w, p)] from by
            simp [insertExecutable, hfp, hk]]
          rw [listLookup_append, listLookup_singleton_other w v p (fun h => hv h.symm),
            Option.or_none]

theorem keys_nodup_foldl : ∀ (paths : List Path) (acc : List (ExactVersion × Path)),
    (acc.map Prod.fst).Nodup → ((paths.foldl insertExecutable acc).map Prod.fst).Nodup := by
  intro paths
  induction paths with
  | nil => intro acc h; exact h
  | cons p rest ih =>
    intro acc h
    rw [List.foldl_cons]
    apply ih
    cases hfp : ExactVersion.from_path p with
    | error e => simpa [insertExecutable, hfp] using h
    | ok w =>
      by_cases hk : w ∈ acc.map Prod.fst
      · simpa [insertExecutable, hfp, hk] using h
      · rw [show insertExecutable acc p = acc ++ [(w, p)] from by
          simp [insertExecutable, hfp, hk]]
        rw [List.map_append, List.nodup_append]
        refine ⟨h, by simp, ?_⟩
        intro a ha hw
        simp at hw
        exact hk (hw ▸ ha)

/-- C2: the discovery map built from a path sequence has `Nodup` keys
(exactly one entry per discovered version); the association of every
version `v` is exactly the first path in the sequence that parses to `v`
(so later duplicates are discarded and unparseable paths contribute
nothing); and a version is a key exactly when some path parses to it.
The operation is total — it never returns an error. -/
theorem all_executables_first_wins : ∀ paths : List Path,
    ((all_executables_in_paths paths).map Prod.fst).Nodup
    ∧ (∀ v, listLookup (all_executables_in_paths paths) v
        = paths.find? fun p => decide (ExactVersion.from_path p = .ok v))
    ∧ (∀ v, v ∈ (all_executables_in_paths paths).map Prod.fst
        ↔ ∃ p ∈ paths, ExactVersion.from_path p = .ok v) := by
  intro paths
  have hlook : ∀ v, listLookup (all_executables_in_paths paths) v
      = paths.find? fun p => decide (ExactVersion.from_path p = .ok v) := by
    intro v
    rw [all_executables_in_paths, lookup_foldl_insertExecutable paths [] v]
    rfl
  refine ⟨keys_nodup_foldl paths [] (by simp), hlook, ?_⟩
  intro v
  constructor
  · intro hv
    obtain ⟨q, hq⟩ : ∃ q, listLookup (all_executables_in_paths paths) v = some q := by
      cases hc : listLookup (all_executables_in_paths paths) v with
      | none => exact absurd ((listLookup_eq_none_iff _ v).mp hc) (by simp [hv])
      | some q => exact ⟨q, rfl⟩
    rw [hlook v] at hq
    have := List.find?_some hq
    rw [decide_eq_true_iff] at this
    exact ⟨q, List.mem_of_find?_eq_some hq, this⟩
  · rintro ⟨p, hp, hok⟩
    by_contra hk
    have hnone := (listLookup_eq_none_iff _ v).mpr hk
    rw [hlook v, List.find?_eq_none] at hnone
    exact hnone p hp (by simp [hok])

theorem entries_reparse_foldl : ∀ (paths : List Path) (acc : List (ExactVersion × Path)),
    (∀ e ∈ acc, ExactVersion.from_path e.2 = .ok e.1) →
    ∀ e ∈ paths.foldl insertExecutable acc, ExactVersion.from_path e.2 = .ok e.1 := by
  intro paths
  induction paths with
  | nil => intro acc h; exact h
  | cons p rest ih =>
    intro acc h
    rw [List.foldl_cons]
    apply ih
    cases hfp : ExactVersion.from_path p with
    | error e => simpa [insertExecutable, hfp] using h
    | ok w =>
      by_cases hk : w ∈ acc.map Prod.fst
      · simpa [insertExecutable, hfp, hk] using h
      · rw [show insertExecutable acc p = acc ++ [(w, p)] from by
          simp [insertExecutable, hfp, hk]]
        intro e he
        rw [List.mem_append] at he
        rcases he with he | he
        · exact h e he
        · simp at he
          rw [he]
          exact hfp

/-- C8: every entry `(v, p)` of the discovery map re-parses to its own
key: `ExactVersion::from_path p = Ok v`. -/
theorem all_executables_entries_reparse : ∀ (paths : List Path) (v : ExactVersion) (p : Path),
    (v, p) ∈ all_executables_in_paths paths → ExactVersion.from_path p = .ok v := by
  intro paths v p h
  exact entries_reparse_foldl paths [] (by simp) (v, p) h

/-- C8 (witness): the single discovered path `"/python3.6"` is stored
under key `3.6` and re-parses to it. -/
theorem all_executables_entries_reparse_witness :
    ExactVersion.from_path "/python3.6".toList = .ok ⟨3, 6⟩ :=
  all_executables_entries_reparse ["/python3.6".toList] ⟨3, 6⟩ "/python3.6".toList (by decide)

/-! ### Resolution: order facts and the maximum fold -/

theorem vLt_asymm {v w : ExactVersion} (h : vLt v w) : ¬vLt w v := by
  intro h'
  unfold vLt at h h'
  omega

theorem vLt_trans {u v w : ExactVersion} (h1 : vLt u v) (h2 : vLt v w) : vLt u w := by
  unfold vLt at h1 h2 ⊢
  omega

theorem vLt_trichotomy (v w : ExactVersion) : vLt v w ∨ v = w ∨ vLt w v := by
  obtain ⟨a, b⟩ := v
  obtain ⟨c, d⟩ := w
  simp only [vLt, ExactVersion.mk.injEq]
  omega

theorem natListLe_refl : ∀ l : List Nat, natListLe l l
  | [] => trivial
  | _ :: as => Or.inr ⟨rfl, natListLe_refl as⟩

theorem natListLe_total : ∀ l₁ l₂ : List Nat, natListLe l₁ l₂ ∨ natListLe l₂ l₁
  | [], _ => Or.inl trivial
  | _ :: _, [] => Or.inr trivial
  | a :: as, b :: bs =>
    match Nat.lt_trichotomy a b with
    | .inl h => Or.inl (Or.inl h)
    | .inr (.inl h) =>
      match natListLe_total as bs with
      | .inl hr => Or.inl (Or.inr ⟨h, hr⟩)
      | .inr hr => Or.inr (Or.inr ⟨h.symm, hr⟩)
    | .inr (.inr h) => Or.inr (Or.inl h)

theorem natListLe_trans : ∀ l₁ l₂ l₃ : List Nat,
    natListLe l₁ l₂ → natListLe l₂ l₃ → natListLe l₁ l₃ := by
  intro l₁
  induction l₁ with
  | nil => intro l₂ l₃ _ _; exact trivial
  | cons a as ih =>
    intro l₂ l₃ h1 h2
    cases l₂ with
    | nil => exact h1.elim
    | cons b bs =>
      cases l₃ with
      | nil => exact h2.elim
      | cons c cs =>
        simp only [natListLe] at h1 h2 ⊢
        rcases h1 with h1 | ⟨hab, h1⟩ <;> rcases h2 with h2 | ⟨hbc, h2⟩
        · exact Or.inl (h1.trans h2)
        · exact Or.inl (hbc ▸ h1)
        · exact Or.inl (hab ▸ h2)
        · exact Or.inr ⟨hab.trans hbc, ih bs cs h1 h2⟩

theorem entryLe_refl (x : ExactVersion × Path) : entryLe x x :=
  Or.inr ⟨rfl, natListLe_refl _⟩

theorem entryLe_total (x y : ExactVersion × Path) : entryLe x y ∨ entryLe y x := by
  unfold entryLe
  rcases vLt_trichotomy x.1 y.1 with h | h | h
  · exact Or.inl (Or.inl h)
  · rcases natListLe_total (x.2.map Char.toNat) (y.2.map Char.toNat) with hl | hl
    · exact Or.inl (Or.inr ⟨h, hl⟩)
    · exact Or.inr (Or.inr ⟨h.symm, hl⟩)
  · exact Or.inr (Or.inl h)

theorem entryLe_trans {x y z : ExactVersion × Path}
    (h1 : entryLe x y) (h2 : entryLe y z) : entryLe x z := by
  unfold entryLe at h1 h2 ⊢
  rcases h1 with h1 | ⟨e1, h1⟩ <;> rcases h2 with h2 | ⟨e2, h2⟩
  · exact Or.inl (vLt_trans h1 h2)
  · exact Or.inl (e2 ▸ h1)
  · exact Or.inl (e1 ▸ h2)
  · exact Or.inr ⟨e1.trans e2, natListLe_trans _ _ _ h1 h2⟩

theorem entryLe_key {x y : ExactVersion × Path} (h : entryLe x y) : vLe x.1 y.1 := by
  unfold entryLe at h
  unfold vLe
  rcases h with h | ⟨h, -⟩
  · exact Or.inl h
  · exact Or.inr h

theorem maxAux_mem : ∀ (l : List (ExactVersion × Path)) (c),
    maxAux c l = c ∨ maxAux c l ∈ l := by
  intro l
  induction l with
  | nil => intro c; exact Or.inl rfl
  | cons x xs ih =>
    intro c
    rw [show maxAux c (x :: xs) = maxAux (if entryLe c x then x else c) xs from rfl]
    rcases ih (if entryLe c x then x else c) with h | h
    · rw [h]
      by_cases hc : entryLe c x
      · rw [if_pos hc]; exact Or.inr (List.mem_cons_self x xs)
      · rw [if_neg hc]; exact Or.inl rfl
    · exact Or.inr (List.mem_cons_of_mem x h)

theorem maxAux_le : ∀ (l : List (ExactVersion × Path)) (c),
    entryLe c (maxAux c l) ∧ ∀ x ∈ l, entryLe x (maxAux c l) := by
  intro l
  induction l with
  | nil => intro c; exact ⟨entryLe_refl c, by simp⟩
  | cons x xs ih =>
    intro c
    rw [show maxAux c (x :: xs) = maxAux (if entryLe c x then x else c) xs from rfl]
    obtain ⟨h1, h2⟩ := ih (if entryLe c x then x else c)
    constructor
    · by_cases hc : entryLe c x
      · rw [if_pos hc] at h1 ⊢
        exact entryLe_trans hc h1
      · rw [if_neg hc] at h1 ⊢
        exact h1
    · intro y hy
      rw [List.mem_cons] at hy
      rcases hy with hy | hy
      · subst hy
        by_cases hc : entryLe c y
        · rw [if_pos hc] at h1 ⊢
          exact h1
        · rw [if_neg hc] at h1 ⊢
          rcases entryLe_total c y with h | h
          · exact absurd h hc
          · exact entryLe_trans h h1
      · exact h2 y hy

theorem listMax_spec {l : List (ExactVersion × Path)} {m : ExactVersion × Path}
    (h : listMax l = some m) : m ∈ l ∧ ∀ x ∈ l, entryLe x m := by
  cases l with
  | nil => simp [listMax] at h
  | cons x xs =>
    rw [show listMax (x :: xs) = some (maxAux x xs) from rfl] at h
    injection h with h
    subst h
    obtain ⟨h1, h2⟩ := maxAux_le xs x
    constructor
    · rcases maxAux_mem xs x with h | h
      · rw [h]; exact List.mem_cons_self x xs
      · exact List.mem_cons_of_mem x h
    · intro y hy
      rw [List.mem_cons] at hy
      rcases hy with hy | hy
      · subst hy; exact h1
      · exact h2 y hy

theorem listMax_eq_none_iff (l : List (ExactVersion × Path)) :
    listMax l = none ↔ l = [] := by
  cases l <;> simp [listMax]

/-- With `Nodup` keys, the maximal-key entry is the result of the
maximum fold. -/
theorem listMax_eq_of {l : List (ExactVersion × Path)}
    (h : (l.map Prod.fst).Nodup) {v : ExactVersion} {p : Path}
    (hmem : (v, p) ∈ l) (hmax : ∀ x ∈ l, vLe x.1 v) : listMax l = some (v, p) := by
  cases hl : listMax l with
  | none =>
    rw [listMax_eq_none_iff] at hl
    subst hl
    simp at hmem
  | some m =>
    obtain ⟨hm, hle⟩ := listMax_spec hl
    have h1 : entryLe (v, p) m := hle _ hmem
    have h2 : vLe m.1 v := hmax m hm
    have hveq : m.1 = v := by
      have h1' := entryLe_key h1
      unfold vLe at h1' h2
      rcases h1' with h1' | h1'
      · rcases h2 with h2 | h2
        · exact absurd h2 (vLt_asymm h1')
        · exact h2
      · exact h1'.symm
    have : m = (v, p) := List.inj_on_of_nodup_map h hm hmem (by rw [hveq])
    rw [this]

theorem supports_any (v : ExactVersion) : v.supports .Any = true := rfl

theorem supports_majorOnly_iff (v : ExactVersion) (m : Nat) :
    v.supports (.MajorOnly m) = true ↔ v.major = m := by
  simp [ExactVersion.supports]

theorem supports_exact_iff (v : ExactVersion) (m n : Nat) :
    v.supports (.Exact m n) = true ↔ v.major = m ∧ v.minor = n := by
  simp [ExactVersion.supports]

theorem exact_version_eq_of (v : ExactVersion) (a b : Nat)
    (h1 : v.major = a) (h2 : v.minor = b) : v = ⟨a, b⟩ := by
  obtain ⟨vm, vn⟩ := v
  rw [show vm = a from h1, show vn = b from h2]

theorem find_any_some_iff (l : List (ExactVersion × Path))
    (h : (l.map Prod.fst).Nodup) (p : Path) :
    find_executable_in_hashmap .Any l = some p ↔
      ∃ v, (v, p) ∈ l ∧ ∀ w ∈ l.map Prod.fst, vLe w v := by
  rw [show find_executable_in_hashmap .Any l = (listMax l).map Prod.snd from rfl]
  constructor
  · intro hsome
    obtain ⟨m, hm, hp⟩ := Option.map_eq_some'.mp hsome
    obtain ⟨hmem, hle⟩ := listMax_spec hm
    refine ⟨m.1, ?_, ?_⟩
    · rw [← hp]
      simpa [Prod.mk.eta] using hmem
    · intro w hw
      rw [List.mem_map] at hw
      obtain ⟨x, hx, hfx⟩ := hw
      rw [← hfx]
      exact entryLe_key (hle x hx)
  · rintro ⟨v, hmem, hmax⟩
    rw [listMax_eq_of h hmem fun x hx => hmax x.1 (List.mem_map_of_mem Prod.fst hx)]
    rfl

theorem find_majorOnly_some_iff (l : List (ExactVersion × Path))
    (h : (l.map Prod.fst).Nodup) (m : Nat) (p : Path) :
    find_executable_in_hashmap (.MajorOnly m) l = some p ↔
      ∃ v, (v, p) ∈ l ∧ v.major = m
        ∧ ∀ w ∈ l.map Prod.fst, w.major = m → vLe w v := by
  rw [show find_executable_in_hashmap (.MajorOnly m) l
      = (listMax (l.filter fun e => e.1.supports (.MajorOnly m))).map Prod.snd from rfl]
  have hsub : ((l.filter fun e => e.1.supports (.MajorOnly m)).map Prod.fst).Nodup :=
    List.Nodup.sublist (List.Sublist.map Prod.fst (List.filter_sublist l)) h
  constructor
  · intro hsome
    obtain ⟨e, he, hp⟩ := Option.map_eq_some'.mp hsome
    obtain ⟨hmem, hle⟩ := listMax_spec he
    rw [List.mem_filter] at hmem
    obtain ⟨hel, hesup⟩ := hmem
    refine ⟨e.1, ?_, (supports_majorOnly_iff e.1 m).mp hesup, ?_⟩
    · rw [← hp]
      simpa [Prod.mk.eta] using hel
    · intro w hw hwm
      rw [List.mem_map] at hw
      obtain ⟨x, hx, hfx⟩ := hw
      have hxf : x ∈ l.filter fun e => e.1.supports (.MajorOnly m) :=
        List.mem_filter.mpr ⟨hx, (supports_majorOnly_iff x.1 m).mpr (by rw [hfx]; exact hwm)⟩
      rw [← hfx]
      exact entryLe_key (hle x hxf)
  · rintro ⟨v, hmem, hvm, hmax⟩
    have hmemf : (v, p) ∈ l.filter fun e => e.1.supports (.MajorOnly m) :=
      List.mem_filter.mpr ⟨hmem, (supports_majorOnly_iff v m).mpr hvm⟩
    have hmaxf : ∀ x ∈ l.filter fun e => e.1.supports (.MajorOnly m), vLe x.1 v := by
      intro x hx
      rw [List.mem_filter] at hx
      exact hmax x.1 (List.mem_map_of_mem Prod.fst hx.1)
        ((supports_majorOnly_iff x.1 m).mp hx.2)
    rw [listMax_eq_of hsub hmemf hmaxf]
    rfl

theorem find_exact_some_iff (l : List (ExactVersion × Path))
    (h : (l.map Prod.fst).Nodup) (a b : Nat) (p : Path) :
    find_executable_in_hashmap (.Exact a b) l = some p ↔ (⟨a, b⟩, p) ∈ l := by
  rw [show find_executable_in_hashmap (.Exact a b) l
      = (l.find? fun e => e.1.supports (.Exact a b)).map Prod.snd from rfl]
  constructor
  · intro hsome
    obtain ⟨e, he, hp⟩ := Option.map_eq_some'.mp hsome
    have hesup := List.find?_some he
    have hel := List.mem_of_find?_eq_some he
    obtain ⟨h1, h2⟩ := (supports_exact_iff e.1 a b).mp hesup
    have hkey := exact_version_eq_of e.1 a b h1 h2
    have : e = (⟨a, b⟩, p) := by
      rw [← hkey, ← hp, Prod.mk.eta]
    rw [← this]
    exact hel
  · intro hmem
    cases hf : l.find? fun e => e.1.supports (.Exact a b) with
    | none =>
      rw [List.find?_eq_none] at hf
      exact absurd ((supports_exact_iff ⟨a, b⟩ a b).mpr ⟨rfl, rfl⟩)
        (hf (⟨a, b⟩, p) hmem)
    | some e =>
      have hesup := List.find?_some hf
      have hel := List.mem_of_find?_eq_some hf
      obtain ⟨h1, h2⟩ := (supports_exact_iff e.1 a b).mp hesup
      have he : e = (⟨a, b⟩, p) := by
        refine List.inj_on_of_nodup_map h hel hmem ?_
        show e.1 = (⟨a, b⟩ : ExactVersion)
        exact exact_version_eq_of e.1 a b h1 h2
      rw [he]
      rfl

/-- C1: resolution selects by request variant — `Any` returns the path of
the maximum key (absent only on the empty map); `MajorOnly m` returns the
path of the maximum key among keys of major `m`, absent when no key has
major `m`; `Exact a b` returns the path stored under key `(a, b)`, absent
when that key is missing. -/
theorem resolution_selects_by_variant : ∀ l : List (ExactVersion × Path),
    (l.map Prod.fst).Nodup →
    ((find_executable_in_hashmap .Any l = none ↔ l = [])
    ∧ (∀ v p, (v, p) ∈ l → (∀ w ∈ l.map Prod.fst, vLe w v) →
        find_executable_in_hashmap .Any l = some p)
    ∧ (∀ m v p, (v, p) ∈ l → v.major = m → (∀ w ∈ l.map Prod.fst, w.major = m → vLe w v) →
        find_executable_in_hashmap (.MajorOnly m) l = some p)
    ∧ (∀ m, (∀ w ∈ l.map Prod.fst, w.major ≠ m) →
        find_executable_in_hashmap (.MajorOnly m) l = none)
    ∧ (∀ a b p, (⟨a, b⟩, p) ∈ l → find_executable_in_hashmap (.Exact a b) l = some p)
    ∧ (∀ a b, (∀ w ∈ l.map Prod.fst, w ≠ ⟨a, b⟩) →
        find_executable_in_hashmap (.Exact a b) l = none)) := by
  intro l h
  refine ⟨?_, ?_, ?_, ?_, ?_, ?_⟩
  · rw [show find_executable_in_hashmap .Any l = (listMax l).map Prod.snd from rfl,
      Option.map_eq_none', listMax_eq_none_iff]
  · intro v p hmem hmax
    exact (find_any_some_iff l h p).mpr ⟨v, hmem, hmax⟩
  · intro m v p hmem hvm hmax
    exact (find_majorOnly_some_iff l h m p).mpr ⟨v, hmem, hvm, hmax⟩
  · intro m hnone
    rw [show find_executable_in_hashmap (.MajorOnly m) l
        = (listMax (l.filter fun e => e.1.supports (.MajorOnly m))).map Prod.snd from rfl]
    have : l.filter (fun e => e.1.supports (.MajorOnly m)) = [] := by
      rw [List.filter_eq_nil_iff]
      intro e he hsup
      exact hnone e.1 (List.mem_map_of_mem Prod.fst he)
        ((supports_majorOnly_iff e.1 m).mp hsup)
    rw [this]
    rfl
  · intro a b p hmem
    exact (find_exact_some_iff l h a b p).mpr hmem
  · intro a b hnone
    rw [show find_executable_in_hashmap (.Exact a b) l
        = (l.find? fun e => e.1.supports (.Exact a b)).map Prod.snd from rfl]
    have : (l.find? fun e => e.1.supports (.Exact a b)) = none := by
      rw [List.find?_eq_none]
      intro e he hsup
      obtain ⟨h1, h2⟩ := (supports_exact_iff e.1 a b).mp hsup
      refine hnone e.1 (List.mem_map_of_mem Prod.fst he) ?_
      exact exact_version_eq_of e.1 a b h1 h2
    rw [this]
    rfl

/-- C1 (witness): the spec's resolution example over the two-entry map
`{3.6 -> /python3.6, 3.7 -> /python3.7}`. -/
theorem resolution_selects_by_variant_witness :
    find_executable_in_hashmap .Any sampleMap = some "/python3.7".toList
    ∧ find_executable_in_hashmap (.MajorOnly 3) sampleMap = some "/python3.7".toList
    ∧ find_executable_in_hashmap (.MajorOnly 42) sampleMap = none
    ∧ find_executable_in_hashmap (.Exact 3 8) sampleMap = none
    ∧ find_executable_in_hashmap (.Exact 3 6) sampleMap = some "/python3.6".toList := by
  have h := resolution_selects_by_variant sampleMap (by decide)
  exact ⟨h.2.1 ⟨3, 7⟩ "/python3.7".toList (by decide) (by decide),
    h.2.2.1 3 ⟨3, 7⟩ "/python3.7".toList (by decide) (by decide) (by decide),
    h.2.2.2.1 42 (by decide),
    h.2.2.2.2.2 3 8 (by decide),
    h.2.2.2.2.1 3 6 "/python3.6".toList (by decide)⟩

/-- C7: resolution returns an absent value — never an error — whenever no
entry qualifies; in particular on the empty map for every request.  The
return type `Option Path` carries no error at all, keeping the not-found
outcome distinct from the parse errors of `Error`. -/
theorem resolution_no_qualifying_entry_none :
    ∀ (r : RequestedVersion) (l : List (ExactVersion × Path)),
    (find_executable_in_hashmap r [] = none)
    ∧ ((∀ w ∈ l.map Prod.fst, w.supports r = false) →
        find_executable_in_hashmap r l = none) := by
  intro r l
  constructor
  · cases r <;> rfl
  · intro hall
    cases r with
    | Any =>
      cases l with
      | nil => rfl
      | cons x xs =>
        have := hall x.1 (List.mem_map_of_mem Prod.fst (List.mem_cons_self x xs))
        rw [supports_any] at this
        exact absurd this (by simp)
    | MajorOnly m =>
      rw [show find_executable_in_hashmap (.MajorOnly m) l
          = (listMax (l.filter fun e => e.1.supports (.MajorOnly m))).map Prod.snd from rfl]
      have : l.filter (fun e => e.1.supports (.MajorOnly m)) = [] := by
        rw [List.filter_eq_nil_iff]
        intro e he hsup
        rw [hall e.1 (List.mem_map_of_mem Prod.fst he)] at hsup
        exact absurd hsup (by simp)
      rw [this]
      rfl
    | Exact a b =>
      rw [show find_executable_in_hashmap (.Exact a b) l
          = (l.find? fun e => e.1.supports (.Exact a b)).map Prod.snd from rfl]
      have : (l.find? fun e => e.1.supports (.Exact a b)) = none := by
        rw [List.find?_eq_none]
        intro e he hsup
        rw [hall e.1 (List.mem_map_of_mem Prod.fst he)] at hsup
        exact absurd hsup (by simp)
      rw [this]
      rfl

/-- Two options are equal when they contain the same values. -/
theorem option_eq_of_some_iff {α : Type} {o₁ o₂ : Option α}
    (h : ∀ x, o₁ = some x ↔ o₂ = some x) : o₁ = o₂ := by
  cases h₁ : o₁ with
  | some x => exact ((h x).mp h₁).symm
  | none =>
    cases h₂ : o₂ with
    | none => rfl
    | some y => exact absurd ((h y).mpr h₂) (by rw [h₁]; simp)

/-- C9: resolution is deterministic in the map — it depends only on the
set of `(version, path)` entries, not on the hash map's iteration order:
any permutation of the entry list (with the map's `Nodup`-keys invariant)
yields the same result for every request. -/
theorem resolution_independent_of_iteration_order :
    ∀ (r : RequestedVersion) (l₁ l₂ : List (ExactVersion × Path)),
    (l₁.map Prod.fst).Nodup → l₁.Perm l₂ →
    find_executable_in_hashmap r l₁ = find_executable_in_hashmap r l₂ := by
  intro r l₁ l₂ h1 hperm
  have h2 : (l₂.map Prod.fst).Nodup := (List.Perm.nodup_iff (hperm.map Prod.fst)).mp h1
  have hmem : ∀ x : ExactVersion × Path, x ∈ l₁ ↔ x ∈ l₂ := fun x => hperm.mem_iff
  have hkeys : ∀ w : ExactVersion, w ∈ l₁.map Prod.fst ↔ w ∈ l₂.map Prod.fst :=
    fun w => (hperm.map Prod.fst).mem_iff
  apply option_eq_of_some_iff
  intro p
  cases r with
  | Any =>
    rw [find_any_some_iff l₁ h1 p, find_any_some_iff l₂ h2 p]
    constructor
    · rintro ⟨v, hv, hmax⟩
      exact ⟨v, (hmem _).mp hv, fun w hw => hmax w ((hkeys w).mpr hw)⟩
    · rintro ⟨v, hv, hmax⟩
      exact ⟨v, (hmem _).mpr hv, fun w hw => hmax w ((hkeys w).mp hw)⟩
  | MajorOnly m =>
    rw [find_majorOnly_some_iff l₁ h1 m p, find_majorOnly_some_iff l₂ h2 m p]
    constructor
    · rintro ⟨v, hv, hvm, hmax⟩
      exact ⟨v, (hmem _).mp hv, hvm, fun w hw hwm => hmax w ((hkeys w).mpr hw) hwm⟩
    · rintro ⟨v, hv, hvm, hmax⟩
      exact ⟨v, (hmem _).mpr hv, hvm, fun w hw hwm => hmax w ((hkeys w).mp hw) hwm⟩
  | Exact a b =>
    rw [find_exact_some_iff l₁ h1 a b p, find_exact_some_iff l₂ h2 a b p]
    exact hmem _

/-- C9 (witness): both iteration orders of the two-entry example map
resolve `Any` to the same path. -/
theorem resolution_independent_of_iteration_order_witness :
    find_executable_in_hashmap .Any sampleMap
      = find_executable_in_hashmap .Any sampleMap.reverse :=
  resolution_independent_of_iteration_order .Any sampleMap sampleMap.reverse
    (by decide) (by decide)

/-- C7 (witness): the request `Exact 3 8` qualifies no entry of the
example map, and resolution of it (and of anything on the empty map)
returns `none`. -/
theorem resolution_no_qualifying_entry_none_witness :
    find_executable_in_hashmap (.Exact 3 8) [] = none
    ∧ find_executable_in_hashmap (.Exact 3 8) sampleMap = none :=
  ⟨(resolution_no_qualifying_entry_none (.Exact 3 8) sampleMap).1,
    (resolution_no_qualifying_entry_none (.Exact 3 8) sampleMap).2 (by decide)⟩

end PyLauncher
